import Mathlib

/-!
Verification development for the argument-mapping sunburst visualizer.

The JavaScript sources are shallowly embedded:

* `config.js` becomes the `Config` record below (hex colour strings are
  represented by their parsed RGB byte triples, which is what
  `adjustBrightness` extracts from them with `parseInt(hex.slice ..., 16)`).
* JS numbers are modelled as exact rationals `ℚ`; where the code can
  produce a non-finite number (division by zero yielding `NaN` or
  `Infinity`) the embedded operation returns `Option ℚ`, with `none`
  standing for the non-finite result.
* `TreeBuilder.buildTree` (flat node list to tree) is modelled as a state
  machine over an explicit visited list and attachment-edge list, mirroring
  the mutations the code performs on the per-id `children` arrays stored in
  its `nodeMap`.
* `D3Sunburst.render`: the manual angle assignment `setEqualAngles` and the
  radius computations `getRadius` / `getPadAngle` are embedded directly.
* `DebateVisualizer` zoom state (`zoomIn` / `zoomOut` / `zoomToLevel`,
  `findNodeById`) is embedded as a functional state machine.
-/

/-! ## Configuration (src/js/config.js) -/

/-- An RGB colour; the JS code stores colours as hex strings and
`adjustBrightness` reads the three byte components with `parseInt`. -/
structure RGB where
  r : ℕ
  g : ℕ
  b : ℕ
deriving DecidableEq, Repr

/-- `Config.colors`: thesis `#FFD700`, foundational `#4A90E2`,
practical `#7ED321`, support `#50C878`, attack `#E74C3C`, border `#ffffff`. -/
structure ColorsConfig where
  thesis : RGB
  foundational : RGB
  practical : RGB
  support : RGB
  attack : RGB
  border : RGB
deriving DecidableEq, Repr

/-- `Config.brightness`. -/
structure BrightnessConfig where
  factor : ℚ
  maxFactor : ℚ
deriving DecidableEq, Repr

/-- `Config.spacing.padAngle`. -/
structure PadAngleConfig where
  inner : ℚ
  outer : ℚ
deriving DecidableEq, Repr

/-- `Config.spacing.radiusExponent`. -/
structure RadiusExponentConfig where
  base : ℚ
  perLevel : ℚ
deriving DecidableEq, Repr

/-- `Config.spacing`. -/
structure SpacingConfig where
  verticalGap : ℚ
  padAngle : PadAngleConfig
  radiusExponent : RadiusExponentConfig
  exponentDepthThreshold : ℚ
deriving DecidableEq, Repr

/-- The parts of the `Config` object from `src/js/config.js` that the
layout and colouring code reads. -/
structure ConfigRecord where
  colors : ColorsConfig
  brightness : BrightnessConfig
  spacing : SpacingConfig
deriving DecidableEq, Repr

/-- The concrete configuration values of `src/js/config.js`. -/
def Config : ConfigRecord :=
  { colors :=
      { thesis := ⟨0xFF, 0xD7, 0x00⟩
        foundational := ⟨0x4A, 0x90, 0xE2⟩
        practical := ⟨0x7E, 0xD3, 0x21⟩
        support := ⟨0x50, 0xC8, 0x78⟩
        attack := ⟨0xE7, 0x4C, 0x3C⟩
        border := ⟨0xFF, 0xFF, 0xFF⟩ }
    brightness := { factor := 1 / 2, maxFactor := 1 / 2 }
    spacing :=
      { verticalGap := 1 / 100
        padAngle := { inner := 3 / 100, outer := 1 / 100 }
        radiusExponent := { base := 6 / 5, perLevel := 1 / 5 }
        exponentDepthThreshold := 3 } }

/-! ## JS number primitives -/

/-- JS division on finite numbers. `none` models the non-finite results:
`0 / 0` is `NaN` and `x / 0` for nonzero `x` is `±Infinity`. -/
def jsDiv (a b : ℚ) : Option ℚ :=
  if b = 0 then none else some (a / b)

/-- JS `a || d` where `a` is a possibly-absent number: `undefined`, `null`
and `0` are falsy, so they all select the default `d`. -/
def jsOr (a : Option ℚ) (d : ℚ) : ℚ :=
  match a with
  | none => d
  | some x => if x = 0 then d else x

/-- JS `Math.round`: rounds half-way cases toward positive infinity. -/
def jsRound (q : ℚ) : ℤ :=
  ⌊q + 1 / 2⌋

/-! ## Pad-angle interpolation (src/js/D3Sunburst.js, `getPadAngle`)

```
const getPadAngle = (d) => {
    const depthFraction = d.depth / maxDepth;
    return Config.spacing.padAngle.inner -
        (depthFraction * (Config.spacing.padAngle.inner - Config.spacing.padAngle.outer));
};
```

There is no special case for `maxDepth == 0`; the result is an
`Option ℚ` because `0 / 0` is `NaN` in JS. A `NaN` `depthFraction`
propagates through the subtraction and multiplication, so the whole
pad angle is `NaN` (`none`). -/

/-- The pad-angle computation of `render`, for a node at depth `depth` in a
subtree of maximum depth `maxDepth`. -/
def getPadAngle (depth maxDepth : ℕ) : Option ℚ :=
  (jsDiv (depth : ℚ) (maxDepth : ℚ)).map fun depthFraction =>
    Config.spacing.padAngle.inner -
      depthFraction * (Config.spacing.padAngle.inner - Config.spacing.padAngle.outer)

/-! ## Node colouring (TreeBuilder `getNodeColor` / `adjustBrightness`) -/

/-- The fields of a tree node that `getNodeColor` reads: its `type`, the
`relationType` annotation added by the tree builder (absent on the root or
when the attaching relation has no `relation_type`), and `score?.intensity`
(`none` when `score` or `score.intensity` is absent). -/
structure ColorNode where
  ntype : String
  relationType : Option String
  intensity : Option ℚ
deriving DecidableEq, Repr

/-- `TreeBuilder.adjustBrightness`: scales each RGB component by
`1 - intensity * Config.brightness.maxFactor`, rounding like `Math.round`.
The JS function re-encodes the result as a hex string; we keep the
component triple. -/
def adjustBrightness (hexColor : RGB) (intensity : ℚ) : ℤ × ℤ × ℤ :=
  let factor : ℚ := 1 - intensity * Config.brightness.maxFactor
  (jsRound ((hexColor.r : ℚ) * factor),
   jsRound ((hexColor.g : ℚ) * factor),
   jsRound ((hexColor.b : ℚ) * factor))

/-- `TreeBuilder.getNodeColor`: thesis nodes get the fixed thesis colour;
other nodes pick attack or support by `relationType === "attack"` and are
darkened by `adjustBrightness` with `node.score?.intensity || 0.5`. -/
def getNodeColor (node : ColorNode) : ℤ × ℤ × ℤ :=
  let baseColor : RGB :=
    if node.ntype = "thesis" then Config.colors.thesis
    else if node.relationType = some "attack" then Config.colors.attack
    else Config.colors.support
  if node.ntype = "thesis" then ((baseColor.r : ℤ), (baseColor.g : ℤ), (baseColor.b : ℤ))
  else
    let intensity := jsOr node.intensity (1 / 2)
    adjustBrightness baseColor intensity

/-! ## Claim C1: pad angle at `maxDepth = 0` -/

/-- C1 (code_bug evidence): the claim states that the padding-angle
computation is special-cased when `maxDepth = 0` so that it returns the
inner padding value and performs no division by zero. The code has no such
guard: for a single-node subtree (`maxDepth = 0`, the only node at depth
`0`) it computes `0 / 0`, which is `NaN` (`none` in the embedding), not the
inner padding value `0.03`. For any positive `maxDepth` the depth-0 value
is indeed the inner padding value, so the divergence is exactly the missing
guard. -/
theorem getPadAngle_maxDepth_zero_is_nan :
    getPadAngle 0 0 = none ∧
    getPadAngle 0 0 ≠ some Config.spacing.padAngle.inner ∧
    getPadAngle 0 1 = some Config.spacing.padAngle.inner ∧
    getPadAngle 1 1 = some Config.spacing.padAngle.outer := by
  refine ⟨rfl, ?_, ?_, ?_⟩ <;> simp [getPadAngle, jsDiv, Config]

/-! ## Claim C10: colour selection and intensity defaulting -/

/-- C10: for every non-thesis node, `getNodeColor` uses the attack hue
exactly when `relationType === "attack"` (any other value, including an
absent `relationType`, yields the support hue), and an absent or zero
intensity is treated as `0.5` in the brightness factor
`1 - intensity * maxFactor`. -/
theorem getNodeColor_spec (node : ColorNode) (h : node.ntype ≠ "thesis") :
    (node.relationType = some "attack" →
      getNodeColor node = adjustBrightness Config.colors.attack (jsOr node.intensity (1 / 2))) ∧
    (node.relationType ≠ some "attack" →
      getNodeColor node = adjustBrightness Config.colors.support (jsOr node.intensity (1 / 2))) ∧
    ((node.intensity = none ∨ node.intensity = some 0) →
      getNodeColor node =
        adjustBrightness
          (if node.relationType = some "attack" then Config.colors.attack
           else Config.colors.support) (1 / 2)) := by
  refine ⟨fun hat => ?_, fun hnat => ?_, fun hint => ?_⟩
  · simp [getNodeColor, h, hat]
  · simp [getNodeColor, h, hnat]
  · rcases hint with hi | hi <;>
      simp [getNodeColor, h, jsOr, hi]

/-- Witness for C10 at a concrete node: a practical node with an absent
relation type and zero intensity gets the support hue at factor
`1 - 0.5 * 0.5 = 0.75`: `(80, 200, 120)` becomes `(60, 150, 90)`. -/
theorem getNodeColor_spec_witness :
    getNodeColor ⟨"practical", none, some 0⟩ = (60, 150, 90) := by
  have h := getNodeColor_spec ⟨"practical", none, some 0⟩ (by decide)
  have h2 := h.2.1 (by decide)
  rw [h2]
  simp [adjustBrightness, jsOr, jsRound, Config]
  norm_num

/-! ## Tree builder (TreeBuilder.js, `buildTree`)

`buildTree` first loads every node into a `Map` keyed by id (a later node
with a duplicate id silently replaces an earlier one, keeping its position),
then finds the first value with `type === "thesis"` and recursively attaches
children.  The recursion mutates the per-id `children` arrays stored in the
map (object spread copies the array *reference*), so the construction is
modelled as a state machine over

* `visited` — the visited set, in insertion order, and
* `edges`   — the pushes `parentNode.children.push(childWithRelation)`,
  in execution order, each recording the parent id, the attached child id
  and the relation annotation copied onto the attached child.

The JS recursion is depth-bounded by the number of distinct ids thanks to
the visited set; the embedding makes that explicit with a fuel parameter
(`buildTree` passes `m.length + 1`, which is always enough, and the
characterization theorems below hold for every fuel value). -/

/-- One entry of a node's `relations` array. -/
structure Relation where
  target_node_id : String
  relation_type : Option String
  reasoning : Option String
deriving DecidableEq, Repr

/-- A proposition node as consumed by `buildTree`.  `intensity` models
`score?.intensity` (`none` when `score` or `score.intensity` is absent);
the opaque display fields (`title`, `description`, ...) play no role in the
claims and are omitted. -/
structure RawNode where
  id : String
  type : String
  relations : List Relation
  intensity : Option ℚ
deriving DecidableEq, Repr

/-- JS `Map.set`: replaces the value in place if the key is present,
otherwise appends. -/
def mapSet (m : List RawNode) (n : RawNode) : List RawNode :=
  if m.any (fun e => e.id == n.id) then
    m.map (fun e => if e.id == n.id then n else e)
  else m ++ [n]

/-- The `nodeMap` of `buildTree`, as its value list in iteration order. -/
def buildNodeMap (nodes : List RawNode) : List RawNode :=
  nodes.foldl mapSet []

/-- One `parentNode.children.push(childWithRelation)` performed by
`buildTreeRecursive`: parent id, attached child id, and the
`relationType` / `relationReasoning` annotation copied onto the child
(first relation of the child whose target is the parent). -/
structure Edge where
  parent : String
  child : String
  relationType : Option String
  relationReasoning : Option String
deriving DecidableEq, Repr

/-- The mutable state of the tree construction. -/
structure BuildState where
  visited : List String
  edges : List Edge
deriving DecidableEq, Repr

/-- The children scan of `buildTreeRecursive`:
`Array.from(nodeMap.values()).filter(n => n.relations && n.relations.length
&& n.relations.some(r => r.target_node_id === parentNode.id))`. -/
def childFilter (m : List RawNode) (pid : String) : List RawNode :=
  m.filter fun n => !n.relations.isEmpty && n.relations.any (fun r => r.target_node_id == pid)

/-- The relation annotation added when attaching `child` under parent
`pid`: the first relation of `child` targeting `pid`
(`childNode.relations.find(r => r.target_node_id === parentNode.id)`). -/
def mkEdge (pid : String) (child : RawNode) : Edge :=
  let relation := child.relations.find? (fun r => r.target_node_id == pid)
  { parent := pid
    child := child.id
    relationType := relation.bind (fun r => r.relation_type)
    relationReasoning := relation.bind (fun r => r.reasoning) }

/-- `buildTreeRecursive(parentNode)`: return early when the parent id was
already visited; otherwise mark it visited, scan the node map for children,
and for each child first push the attachment edge, then recurse into the
child.  (The push happens before the visited check of the recursive call,
which is why an already-visited child is pushed again but not expanded.) -/
def buildTreeRecursive (fuel : ℕ) (m : List RawNode) (pid : String) (st : BuildState) :
    BuildState :=
  match fuel with
  | 0 => st
  | fuel + 1 =>
    if pid ∈ st.visited then st
    else
      (childFilter m pid).foldl
        (fun acc c =>
          buildTreeRecursive fuel m c.id { acc with edges := acc.edges ++ [mkEdge pid c] })
        { st with visited := st.visited ++ [pid] }

/-- `TreeBuilder.buildTree`: `none` models the JS `return null` taken when
no map value has `type === "thesis"`; otherwise the root id together with
the final construction state. -/
def buildTree (nodes : List RawNode) : Option (String × BuildState) :=
  let m := buildNodeMap nodes
  match m.find? (fun n => n.type == "thesis") with
  | none => none
  | some thesisNode =>
    some (thesisNode.id, buildTreeRecursive (m.length + 1) m thesisNode.id ⟨[], []⟩)

/-- The attachment edges with parent `p`, in push order. -/
def edgesFor (es : List Edge) (p : String) : List Edge :=
  es.filter (fun e => e.parent == p)

/-- The children list accumulated for parent `p` in state `st`. -/
def edgesOf (st : BuildState) (p : String) : List Edge :=
  edgesFor st.edges p

/-- The children the scan produces for an expanded parent `p`: every map
value with at least one relation targeting `p`, in map order, annotated
with its first relation targeting `p`. -/
def expectedEdges (m : List RawNode) (p : String) : List Edge :=
  (childFilter m p).map (mkEdge p)

/-! ### Characterizing the construction

`BuildStep m st r` relates a state `st` to the state `r` obtained from it
by one call of `buildTreeRecursive` (at any fuel): the visited list only
grows at the end, edges are only appended and always for parents that were
expanded during the call, every parent expanded during the call receives
exactly the scan result `expectedEdges`, unexpanded parents own no edges,
and the visited list stays duplicate-free. -/

/-- Effect of one `buildTreeRecursive` call on the construction state. -/
structure BuildStep (m : List RawNode) (st r : BuildState) : Prop where
  visited_mono : ∃ tl, r.visited = st.visited ++ tl
  edges_mono : ∃ es, r.edges = st.edges ++ es ∧
    ∀ e ∈ es, e.parent ∉ st.visited ∧ e.parent ∈ r.visited
  newly_visited : ∀ q, q ∉ st.visited → q ∈ r.visited → edgesOf r q = expectedEdges m q
  unvisited_empty : ∀ q, q ∉ r.visited → edgesOf r q = []
  nodup : st.visited.Nodup → r.visited.Nodup

/-- Effect of the children fold of `buildTreeRecursive` (parent `pid`,
remaining children `cs`) on the construction state. -/
structure FoldStep (m : List RawNode) (pid : String) (cs : List RawNode)
    (a F : BuildState) : Prop where
  visited_mono : ∃ tl, F.visited = a.visited ++ tl
  edges_mono : ∃ es, F.edges = a.edges ++ es ∧
    ∀ e ∈ es, e.parent ∈ F.visited ∧ (e.parent = pid ∨ e.parent ∉ a.visited)
  newly_visited : ∀ q, q ∉ a.visited → q ∈ F.visited → edgesOf F q = expectedEdges m q
  unvisited_empty : ∀ q, q ∉ F.visited → edgesOf F q = []
  nodup : a.visited.Nodup → F.visited.Nodup
  pid_edges : edgesOf F pid = edgesOf a pid ++ cs.map (mkEdge pid)

theorem mkEdge_parent (pid : String) (c : RawNode) : (mkEdge pid c).parent = pid := rfl

theorem edgesFor_append (es fs : List Edge) (p : String) :
    edgesFor (es ++ fs) p = edgesFor es p ++ edgesFor fs p := by
  simp [edgesFor, List.filter_append]

theorem edgesFor_eq_nil (es : List Edge) (p : String) (h : ∀ e ∈ es, e.parent ≠ p) :
    edgesFor es p = [] := by
  rw [edgesFor, List.filter_eq_nil_iff]
  intro e he
  simp [h e he]

/-- The children fold of `buildTreeRecursive` performs a `FoldStep`,
provided every recursive call performs a `BuildStep`. -/
theorem buildTreeRecursive_fold (fuel : ℕ) (m : List RawNode) (pid : String)
    (ih : ∀ (pid2 : String) (st : BuildState),
      (∀ q, q ∉ st.visited → edgesOf st q = []) →
      BuildStep m st (buildTreeRecursive fuel m pid2 st)) :
    ∀ (cs : List RawNode) (a : BuildState),
      pid ∈ a.visited →
      (∀ q, q ∉ a.visited → edgesOf a q = []) →
      FoldStep m pid cs a
        (cs.foldl
          (fun acc c =>
            buildTreeRecursive fuel m c.id { acc with edges := acc.edges ++ [mkEdge pid c] })
          a) := by
  intro cs
  induction cs with
  | nil =>
    intro a hpid h0
    exact
      { visited_mono := ⟨[], by simp⟩
        edges_mono := ⟨[], by simp, by simp⟩
        newly_visited := fun q hq hq2 => absurd hq2 hq
        unvisited_empty := h0
        nodup := fun h => h
        pid_edges := by simp }
  | cons c cs ihc =>
    intro a hpid h0
    simp only [List.foldl_cons]
    have h0a1 : ∀ q, q ∉ ({ a with edges := a.edges ++ [mkEdge pid c] } : BuildState).visited →
        edgesOf { a with edges := a.edges ++ [mkEdge pid c] } q = [] := by
      intro q hq
      have hqa : q ∉ a.visited := hq
      have hqpid : q ≠ pid := fun h => hqa (h ▸ hpid)
      simp only [edgesOf] at *
      rw [edgesFor_append, h0 q hqa, edgesFor_eq_nil [mkEdge pid c] q
        (by intro e he; simp at he; subst he; simpa [mkEdge_parent] using (Ne.symm hqpid))]
      rfl
    have hb := ih c.id { a with edges := a.edges ++ [mkEdge pid c] } h0a1
    obtain ⟨tl1, htl1⟩ := hb.visited_mono
    obtain ⟨es1, hes1, hes1p⟩ := hb.edges_mono
    have hpidb : pid ∈ (buildTreeRecursive fuel m c.id
        { a with edges := a.edges ++ [mkEdge pid c] }).visited := by
      rw [htl1]; exact List.mem_append_left _ hpid
    have hf := ihc (buildTreeRecursive fuel m c.id
        { a with edges := a.edges ++ [mkEdge pid c] }) hpidb hb.unvisited_empty
    obtain ⟨tl2, htl2⟩ := hf.visited_mono
    obtain ⟨es2, hes2, hes2p⟩ := hf.edges_mono
    -- shape of the visited list of the intermediate state
    have hav : ({ a with edges := a.edges ++ [mkEdge pid c] } : BuildState).visited
        = a.visited := rfl
    refine
      { visited_mono := ⟨tl1 ++ tl2, by rw [htl2, htl1, hav, List.append_assoc]⟩
        edges_mono := ?_
        newly_visited := ?_
        unvisited_empty := hf.unvisited_empty
        nodup := ?_
        pid_edges := ?_ }
    · refine ⟨[mkEdge pid c] ++ es1 ++ es2, ?_, ?_⟩
      · rw [hes2, hes1]; simp
      · intro e he
        simp only [List.mem_append] at he
        rcases he with (he | he) | he
        · simp only [List.mem_singleton] at he
          subst he
          refine ⟨?_, Or.inl (mkEdge_parent pid c)⟩
          rw [htl2]
          exact List.mem_append_left _ hpidb
        · have := hes1p e he
          refine ⟨?_, Or.inr (by rw [hav] at this; exact this.1)⟩
          rw [htl2]
          exact List.mem_append_left _ this.2
        · have := hes2p e he
          refine ⟨this.1, ?_⟩
          rcases this.2 with h | h
          · exact Or.inl h
          · exact Or.inr (fun hmem => h (by rw [htl1, hav]; exact List.mem_append_left _ hmem))
    · intro q hqa hqF
      have hqpid : q ≠ pid := fun h => hqa (h ▸ hpid)
      by_cases hqb : q ∈ (buildTreeRecursive fuel m c.id
          { a with edges := a.edges ++ [mkEdge pid c] }).visited
      · have hq1 := hb.newly_visited q (by rw [hav]; exact hqa) hqb
        have : edgesFor es2 q = [] := by
          apply edgesFor_eq_nil
          intro e he
          rcases (hes2p e he).2 with h | h
          · rw [h]; exact Ne.symm hqpid
          · intro heq; exact h (heq ▸ hqb)
        simp only [edgesOf] at *
        rw [hes2, edgesFor_append, this, List.append_nil, hq1]
      · exact hf.newly_visited q hqb hqF
    · intro hnd
      exact hf.nodup (hb.nodup (by rw [hav]; exact hnd))
    · have hce : edgesFor es1 pid = [] := by
        apply edgesFor_eq_nil
        intro e he
        intro heq
        exact (hes1p e he).1 (by rw [heq]; exact hpid)
      have hbpid : edgesOf (buildTreeRecursive fuel m c.id
          { a with edges := a.edges ++ [mkEdge pid c] }) pid
          = edgesOf a pid ++ [mkEdge pid c] := by
        simp only [edgesOf] at *
        rw [hes1]
        show edgesFor ((a.edges ++ [mkEdge pid c]) ++ es1) pid = _
        rw [edgesFor_append, edgesFor_append, hce, List.append_nil]
        congr 1
        rw [edgesFor, List.filter_eq_self.mpr]
        intro e he
        simp at he
        simp [he, mkEdge_parent]
      rw [hf.pid_edges, hbpid]
      simp

/-- Every call of `buildTreeRecursive` performs a `BuildStep`, at every
fuel value: visited ids only accumulate, each id expanded during the call
receives exactly the scan result as its children, ids never expanded own no
children, and the visited list stays duplicate-free. -/
theorem buildTreeRecursive_step (fuel : ℕ) (m : List RawNode) :
    ∀ (pid : String) (st : BuildState),
      (∀ q, q ∉ st.visited → edgesOf st q = []) →
      BuildStep m st (buildTreeRecursive fuel m pid st) := by
  induction fuel with
  | zero =>
    intro pid st h0
    exact
      { visited_mono := ⟨[], by simp [buildTreeRecursive]⟩
        edges_mono := ⟨[], by simp [buildTreeRecursive], by simp⟩
        newly_visited := fun q hq hq2 => absurd hq2 (by simpa [buildTreeRecursive] using hq)
        unvisited_empty := fun q hq => h0 q (by simpa [buildTreeRecursive] using hq)
        nodup := fun h => by simpa [buildTreeRecursive] using h }
  | succ fuel ih =>
    intro pid st h0
    rw [buildTreeRecursive]
    by_cases hv : pid ∈ st.visited
    · rw [if_pos hv]
      exact
        { visited_mono := ⟨[], by simp⟩
          edges_mono := ⟨[], by simp, by simp⟩
          newly_visited := fun q hq hq2 => absurd hq2 hq
          unvisited_empty := h0
          nodup := fun h => h }
    · rw [if_neg hv]
      have hpid1 : pid ∈ ({ st with visited := st.visited ++ [pid] } : BuildState).visited := by
        simp
      have h01 : ∀ q, q ∉ ({ st with visited := st.visited ++ [pid] } : BuildState).visited →
          edgesOf { st with visited := st.visited ++ [pid] } q = [] := by
        intro q hq
        simp only [List.mem_append, List.mem_singleton, not_or] at hq
        exact h0 q hq.1
      have hf := buildTreeRecursive_fold fuel m pid ih (childFilter m pid)
        { st with visited := st.visited ++ [pid] } hpid1 h01
      obtain ⟨tl, htl⟩ := hf.visited_mono
      obtain ⟨es, hes, hesp⟩ := hf.edges_mono
      refine
        { visited_mono := ⟨[pid] ++ tl, by rw [htl]; simp⟩
          edges_mono := ⟨es, hes, ?_⟩
          newly_visited := ?_
          unvisited_empty := hf.unvisited_empty
          nodup := ?_ }
      · intro e he
        have h1 := hesp e he
        refine ⟨?_, h1.1⟩
        rcases h1.2 with h | h
        · rw [h]; exact hv
        · intro hmem
          exact h (by simp [hmem])
      · intro q hq hqF
        by_cases hqpid : q = pid
        · subst hqpid
          rw [hf.pid_edges]
          have hstq : edgesOf { st with visited := st.visited ++ [q] } q = [] := h0 q hq
          rw [hstq, List.nil_append, expectedEdges]
        · refine hf.newly_visited q ?_ hqF
          simp [hq, hqpid]
      · intro hnd
        refine hf.nodup ?_
        simp [List.nodup_append, hnd, hv]

/-- With duplicate-free ids, loading the nodes into the map keeps them all,
in input order. -/
theorem foldl_mapSet_eq (nodes : List RawNode) :
    ∀ acc : List RawNode, (nodes.map RawNode.id).Nodup →
      (∀ n ∈ nodes, ∀ a ∈ acc, a.id ≠ n.id) →
      List.foldl mapSet acc nodes = acc ++ nodes := by
  induction nodes with
  | nil => intro acc _ _; simp
  | cons n rest ihn =>
    intro acc hnd hdisj
    simp only [List.map_cons, List.nodup_cons] at hnd
    have hnone : mapSet acc n = acc ++ [n] := by
      rw [mapSet, if_neg]
      simp only [List.any_eq_true, beq_iff_eq, not_exists]
      intro e
      intro hcontra
      exact hdisj n (List.mem_cons_self n rest) e hcontra.1 hcontra.2
    rw [List.foldl_cons, hnone, ihn (acc ++ [n]) hnd.2 ?_]
    · simp
    · intro k hk a ha
      rcases List.mem_append.mp ha with ha | ha
      · exact hdisj k (List.mem_cons_of_mem n hk) a ha
      · simp only [List.mem_singleton] at ha
        subst ha
        intro heq
        exact hnd.1 (heq ▸ List.mem_map_of_mem RawNode.id hk)
    
/-- With duplicate-free ids the node map is the input list itself. -/
theorem buildNodeMap_eq_self (nodes : List RawNode)
    (hnd : (nodes.map RawNode.id).Nodup) : buildNodeMap nodes = nodes := by
  rw [buildNodeMap, foldl_mapSet_eq nodes [] hnd (by simp)]
  simp

/-! ## Claim C3: which nodes become children of a parent -/

/-- Input for the C3 counterexample: a thesis `"1"`, a node `"2"` targeting
the thesis, and a node `"3"` whose *first* relation targets `"2"` and whose
*second* relation targets `"1"`. -/
def c3nodes : List RawNode :=
  [⟨"1", "thesis", [], none⟩,
   ⟨"2", "practical", [⟨"1", some "support", none⟩], none⟩,
   ⟨"3", "practical", [⟨"2", some "attack", none⟩, ⟨"1", some "support", none⟩], none⟩]

/-- The construction state `buildTree` produces on `c3nodes`. -/
def c3result : BuildState :=
  ⟨["1", "2", "3"],
   [⟨"1", "2", some "support", none⟩, ⟨"2", "3", some "attack", none⟩,
    ⟨"1", "3", some "support", none⟩]⟩

/-- C3 counterexample: node `"3"`, whose first resolvable relation targets
`"2"`, is nevertheless also attached under `"1"` (because the children scan
uses `relations.some(...)`, not only the first relation), so it is attached
under more than one parent — the children of `"1"` are `["2", "3"]`, not
just the nodes whose *first* matching relation targets `"1"`. -/
theorem buildTree_uses_any_relation_counterexample :
    buildTree c3nodes = some ("1", c3result) ∧
    (edgesOf c3result "1").map Edge.child = ["2", "3"] ∧
    (edgesOf c3result "2").map Edge.child = ["3"] ∧
    (c3result.edges.filter (fun e => e.child == "3")).length = 2 := by
  decide

/-- C3 amended: for every input node list, the children attached under each
expanded parent are exactly the map values having at least one relation
(`relations.some`) targeting the parent's id, in map order, each annotated
with its first relation that targets that parent; parents never expanded
have no children. A node with several resolvable relations is therefore
attached under each matching expanded parent, not only under the target of
its first relation. -/
theorem buildTree_children_characterization (nodes : List RawNode) (rootId : String)
    (st : BuildState) (h : buildTree nodes = some (rootId, st)) :
    (∀ p, p ∈ st.visited → edgesOf st p = expectedEdges (buildNodeMap nodes) p) ∧
    (∀ p, p ∉ st.visited → edgesOf st p = []) := by
  simp only [buildTree] at h
  cases hfind : (buildNodeMap nodes).find? (fun n => n.type == "thesis") with
  | none => rw [hfind] at h; simp at h
  | some th =>
    rw [hfind] at h
    simp only [Option.some.injEq, Prod.mk.injEq] at h
    obtain ⟨_, h2⟩ := h
    have hb := buildTreeRecursive_step ((buildNodeMap nodes).length + 1) (buildNodeMap nodes)
      th.id ⟨[], []⟩ (fun q _ => rfl)
    rw [h2] at hb
    exact ⟨fun p hp => hb.newly_visited p (by simp) hp, fun p hp => hb.unvisited_empty p hp⟩

/-- Witness for the C3 amended theorem on a two-node input. -/
theorem buildTree_children_characterization_witness :
    edgesOf ⟨["t", "a"], [⟨"t", "a", some "support", none⟩]⟩ "t" =
      expectedEdges
        (buildNodeMap
          [⟨"t", "thesis", [], none⟩, ⟨"a", "practical", [⟨"t", some "support", none⟩], none⟩])
        "t" :=
  (buildTree_children_characterization
    [⟨"t", "thesis", [], none⟩, ⟨"a", "practical", [⟨"t", some "support", none⟩], none⟩]
    "t" ⟨["t", "a"], [⟨"t", "a", some "support", none⟩]⟩ (by decide)).1 "t" (by decide)

/-! ## Claim C4: each node placed exactly once? -/

/-- Input for the C4 counterexample: a diamond — `"4"` declares relations
to both `"2"` and `"3"`, which both target the thesis `"1"`. -/
def c4nodes : List RawNode :=
  [⟨"1", "thesis", [], none⟩,
   ⟨"2", "practical", [⟨"1", some "support", none⟩], none⟩,
   ⟨"3", "practical", [⟨"1", some "attack", none⟩], none⟩,
   ⟨"4", "practical", [⟨"2", some "support", none⟩, ⟨"3", some "support", none⟩], none⟩]

/-- The construction state `buildTree` produces on `c4nodes`. -/
def c4result : BuildState :=
  ⟨["1", "2", "4", "3"],
   [⟨"1", "2", some "support", none⟩, ⟨"2", "4", some "support", none⟩,
    ⟨"1", "3", some "attack", none⟩, ⟨"3", "4", some "support", none⟩]⟩

/-- C4 counterexample: node `"4"` is reachable from the thesis without
revisiting any node (`1 ← 2 ← 4`), yet it is attached twice — under `"2"`
and again under `"3"` — because the push into the parent's children array
happens before the visited check of the recursive call. The second path is
not dropped. -/
theorem buildTree_second_path_reattaches :
    buildTree c4nodes = some ("1", c4result) ∧
    (c4result.edges.filter (fun e => e.child == "4")).length = 2 ∧
    edgesOf c4result "2" = [⟨"2", "4", some "support", none⟩] ∧
    edgesOf c4result "3" = [⟨"3", "4", some "support", none⟩] := by
  decide

/-- C4 amended: the visited set does guarantee that each id is *expanded*
at most once (the final visited list is duplicate-free), which is what
prevents infinite recursion, and edges are only ever attached under
expanded parents; but a node on a second path to an already-placed node is
attached again rather than dropped (see the counterexample). -/
theorem buildTree_visited_nodup (nodes : List RawNode) (rootId : String)
    (st : BuildState) (h : buildTree nodes = some (rootId, st)) :
    st.visited.Nodup ∧ ∀ e ∈ st.edges, e.parent ∈ st.visited := by
  simp only [buildTree] at h
  cases hfind : (buildNodeMap nodes).find? (fun n => n.type == "thesis") with
  | none => rw [hfind] at h; simp at h
  | some th =>
    rw [hfind] at h
    simp only [Option.some.injEq, Prod.mk.injEq] at h
    obtain ⟨_, h2⟩ := h
    have hb := buildTreeRecursive_step ((buildNodeMap nodes).length + 1) (buildNodeMap nodes)
      th.id ⟨[], []⟩ (fun q _ => rfl)
    rw [h2] at hb
    obtain ⟨es, hes, hesp⟩ := hb.edges_mono
    refine ⟨hb.nodup (by simp), ?_⟩
    intro e he
    have : st.edges = es := by simpa using hes
    exact (hesp e (this ▸ he)).2

/-- Witness for the C4 amended theorem on a single-node input. -/
theorem buildTree_visited_nodup_witness :
    (⟨["r"], []⟩ : BuildState).visited.Nodup ∧
      ∀ e ∈ (⟨["r"], []⟩ : BuildState).edges,
        e.parent ∈ (⟨["r"], []⟩ : BuildState).visited :=
  buildTree_visited_nodup [⟨"r", "thesis", [], none⟩] "r" ⟨["r"], []⟩ (by decide)

/-! ## Claim C9: missing thesis is a reported failure; first thesis wins -/

/-- C9: under the input contract that ids are unique (spec section 4.1),
`buildTree` returns its distinguishable failure value `none` (the JS
`return null`, reported to the caller rather than thrown) exactly when no
input node has `type == "thesis"`; and whenever a thesis exists, the first
one in input order becomes the root. -/
theorem buildTree_thesis_root (nodes : List RawNode)
    (hnd : (nodes.map RawNode.id).Nodup) :
    (buildTree nodes = none ↔ ∀ n ∈ nodes, n.type ≠ "thesis") ∧
    (∀ th, nodes.find? (fun n => n.type == "thesis") = some th →
      ∃ st, buildTree nodes = some (th.id, st)) := by
  have hm : buildNodeMap nodes = nodes := buildNodeMap_eq_self nodes hnd
  constructor
  · constructor
    · intro h n hn hth
      simp only [buildTree, hm] at h
      cases hfind : nodes.find? (fun n => n.type == "thesis") with
      | none =>
        have := List.find?_eq_none.mp hfind n hn
        simp [hth] at this
      | some th => rw [hfind] at h; simp at h
    · intro hall
      simp only [buildTree, hm]
      have hfind : nodes.find? (fun n => n.type == "thesis") = none := by
        rw [List.find?_eq_none]
        intro n hn
        simp [hall n hn]
      rw [hfind]
  · intro th hth
    simp only [buildTree, hm, hth]
    exact ⟨_, rfl⟩

/-- Witness for C9: with two thesis nodes the first in input order becomes
the root, and the build does not fail. -/
theorem buildTree_thesis_root_witness :
    ∃ st, buildTree [⟨"a", "thesis", [], none⟩, ⟨"b", "thesis", [], none⟩]
      = some ("a", st) :=
  (buildTree_thesis_root [⟨"a", "thesis", [], none⟩, ⟨"b", "thesis", [], none⟩]
    (by decide)).2 ⟨"a", "thesis", [], none⟩ (by decide)

/-! ## Claim C8: a mutual cycle disconnected from the thesis -/

/-- C8: for every dataset consisting of a thesis `T` (with no relations)
plus two nodes `X` and `Y` whose relations target only each other and never
the thesis (all ids distinct), the construction terminates — the result is
the same for *every* fuel value, i.e. the visited-set guard stops the
traversal without exhausting the recursion bound — and neither `X` nor `Y`
appears anywhere in the built tree: the final state has visited exactly
`[T.id]` and no attachment edges. -/
theorem buildTree_mutual_cycle_unreachable (T X Y : RawNode)
    (hT : T.type = "thesis") (hTrel : T.relations = [])
    (hX : ∀ r ∈ X.relations, r.target_node_id = Y.id)
    (hY : ∀ r ∈ Y.relations, r.target_node_id = X.id)
    (hXT : X.id ≠ T.id) (hYT : Y.id ≠ T.id) (hXY : X.id ≠ Y.id) :
    (∀ fuel : ℕ,
      buildTreeRecursive (fuel + 1) (buildNodeMap [T, X, Y]) T.id ⟨[], []⟩
        = ⟨[T.id], []⟩) ∧
    buildTree [T, X, Y] = some (T.id, ⟨[T.id], []⟩) ∧
    X.id ∉ [T.id] ∧ Y.id ∉ [T.id] := by
  have hnd : (([T, X, Y] : List RawNode).map RawNode.id).Nodup := by
    simp only [List.map_cons, List.map_nil]
    refine List.nodup_cons.mpr ⟨?_, List.nodup_cons.mpr ⟨?_, List.nodup_singleton _⟩⟩
    · intro hmem
      rcases List.mem_cons.mp hmem with h | h
      · exact hXT h.symm
      · exact hYT (List.mem_singleton.mp h).symm
    · intro hmem
      exact hXY (List.mem_singleton.mp hmem)
  have hm : buildNodeMap [T, X, Y] = [T, X, Y] := buildNodeMap_eq_self _ hnd
  have hXany : X.relations.any (fun r => r.target_node_id == T.id) = false := by
    rw [List.any_eq_false]
    intro r hr
    simp [hX r hr, hYT]
  have hYany : Y.relations.any (fun r => r.target_node_id == T.id) = false := by
    rw [List.any_eq_false]
    intro r hr
    simp [hY r hr, hXT]
  have hcf : childFilter (buildNodeMap [T, X, Y]) T.id = [] := by
    rw [hm, childFilter]
    simp [hTrel, hXany, hYany]
  have hcf0 : childFilter [T, X, Y] T.id = [] := by rw [← hm]; exact hcf
  have hrec0 : ∀ fuel : ℕ,
      buildTreeRecursive (fuel + 1) [T, X, Y] T.id ⟨[], []⟩ = ⟨[T.id], []⟩ := by
    intro fuel
    rw [buildTreeRecursive, if_neg (by simp), hcf0]
    rfl
  have hrec : ∀ fuel : ℕ,
      buildTreeRecursive (fuel + 1) (buildNodeMap [T, X, Y]) T.id ⟨[], []⟩
        = ⟨[T.id], []⟩ := by
    intro fuel
    rw [hm]
    exact hrec0 fuel
  refine ⟨hrec, ?_, by simp [hXT], by simp [hYT]⟩
  have hfind : ([T, X, Y] : List RawNode).find? (fun n => n.type == "thesis") = some T :=
    List.find?_cons_of_pos _ (by simp [hT])
  simp only [buildTree, hm, hfind]
  have hfin : buildTreeRecursive (([T, X, Y] : List RawNode).length + 1) [T, X, Y]
      T.id ⟨[], []⟩ = ⟨[T.id], []⟩ := hrec0 3
  rw [hfin]

/-- Witness for C8 at a concrete three-node dataset with a mutual cycle. -/
theorem buildTree_mutual_cycle_unreachable_witness :
    buildTree
      [⟨"t", "thesis", [], none⟩,
       ⟨"x", "practical", [⟨"y", some "attack", none⟩], none⟩,
       ⟨"y", "practical", [⟨"x", some "support", none⟩], none⟩]
      = some ("t", ⟨["t"], []⟩) :=
  (buildTree_mutual_cycle_unreachable
    ⟨"t", "thesis", [], none⟩
    ⟨"x", "practical", [⟨"y", some "attack", none⟩], none⟩
    ⟨"y", "practical", [⟨"x", some "support", none⟩], none⟩
    rfl rfl (by decide) (by decide) (by decide) (by decide) (by decide)).2.1

/-! ## Equal-angle layout (src/js/D3Sunburst.js, `setEqualAngles`)

`render` assigns angles with

```
const setEqualAngles = (node, x0, x1) => {
    node.x0 = x0; node.x1 = x1;
    if (node.children && node.children.length > 0) {
        const span = x1 - x0;
        const childSpan = span / node.children.length;
        node.children.forEach((child, i) => {
            setEqualAngles(child, x0 + i * childSpan, x0 + (i + 1) * childSpan);
        });
    }
};
setEqualAngles(this.root, 0, 2 * Math.PI);
```

The hierarchy node is embedded as `ATree` with its (ignored) node value and
its mutable angular bounds. Angles are exact rationals: the entry call uses
the full circle `2π`, which appears below as an arbitrary total span `τ`
(only the proportions of the subdivision are at stake, so `π` is `τ / 2`).
The `children.length > 0` guard of the source only avoids a division by
zero whose result would never be used; with an empty list the fold below
produces no children either way. -/

/-- A d3 hierarchy node as the angle assignment sees it: the node's value
(from the data, never read by `setEqualAngles` — angular shares are
independent of any score), and the `x0`/`x1` angular bounds. -/
inductive ATree where
  | mk (val x0 x1 : ℚ) (children : List ATree)

/-- The node value carried from the data (unused by the layout). -/
def ATree.val : ATree → ℚ
  | .mk v _ _ _ => v

/-- Start angle. -/
def ATree.x0 : ATree → ℚ
  | .mk _ a _ _ => a

/-- End angle. -/
def ATree.x1 : ATree → ℚ
  | .mk _ _ b _ => b

/-- Child list. -/
def ATree.children : ATree → List ATree
  | .mk _ _ _ cs => cs

/-- `setEqualAngles(node, x0, x1)`: set the node's bounds and give child
`i` of `k` the slice from `x0 + i * (x1 - x0) / k` to
`x0 + (i + 1) * (x1 - x0) / k`. -/
def setEqualAngles : ATree → ℚ → ℚ → ATree
  | .mk v _ _ cs, x0, x1 =>
    let childSpan := (x1 - x0) / (cs.length : ℚ)
    .mk v x0 x1 (cs.attach.enum.map fun p =>
      setEqualAngles p.2.1 (x0 + (p.1 : ℚ) * childSpan) (x0 + ((p.1 : ℚ) + 1) * childSpan))
termination_by t _ _ => sizeOf t
decreasing_by
  simp_wf
  have := List.sizeOf_lt_of_mem p.2.2
  omega

/-- Checker for the angular-partition property: at every node with `k`
children, child `i` spans exactly
`[x0 + i * (x1 - x0) / k, x0 + (i + 1) * (x1 - x0) / k)` — so sibling
spans are contiguous, non-overlapping, of equal width, and exactly
partition the parent's span, at every level. -/
def equalAngleChk : ATree → Bool
  | .mk _ x0 x1 cs =>
    let k : ℚ := (cs.length : ℚ)
    (cs.enum.all fun p =>
      decide (p.2.x0 = x0 + (p.1 : ℚ) * ((x1 - x0) / k)) &&
      decide (p.2.x1 = x0 + ((p.1 : ℚ) + 1) * ((x1 - x0) / k))) &&
    (cs.attach.all fun c => equalAngleChk c.1)
termination_by t => sizeOf t
decreasing_by
  simp_wf
  have := List.sizeOf_lt_of_mem c.2
  omega

theorem setEqualAngles_x0 (t : ATree) (a b : ℚ) : (setEqualAngles t a b).x0 = a := by
  cases t with
  | mk v p q cs => simp [setEqualAngles, ATree.x0]

theorem setEqualAngles_x1 (t : ATree) (a b : ℚ) : (setEqualAngles t a b).x1 = b := by
  cases t with
  | mk v p q cs => simp [setEqualAngles, ATree.x1]

/-- The angle assignment always establishes the partition property. -/
theorem equalAngleChk_setEqualAngles :
    ∀ (n : ℕ) (t : ATree), sizeOf t ≤ n → ∀ (a b : ℚ),
      equalAngleChk (setEqualAngles t a b) = true := by
  intro n
  induction n with
  | zero =>
    intro t ht
    exfalso
    cases t with
    | mk v p q cs => simp at ht
  | succ n ihn =>
    intro t ht a b
    cases t with
    | mk v p q cs =>
      simp only [ATree.mk.sizeOf_spec] at ht
      rw [setEqualAngles, equalAngleChk, Bool.and_eq_true]
      constructor
      · rw [List.all_eq_true, List.forall_mem_enum]
        intro i hi
        simp only [List.length_map, List.enum_length, List.length_attach] at hi
        have h1 : ∀ hlt : i < (List.map
            (fun pr => setEqualAngles (pr.2 : {x // x ∈ cs}).1
              (a + (pr.1 : ℚ) * ((b - a) / (cs.length : ℚ)))
              (a + ((pr.1 : ℚ) + 1) * ((b - a) / (cs.length : ℚ))))
            cs.attach.enum).length,
            getElem (List.map
              (fun pr => setEqualAngles (pr.2 : {x // x ∈ cs}).1
                (a + (pr.1 : ℚ) * ((b - a) / (cs.length : ℚ)))
                (a + ((pr.1 : ℚ) + 1) * ((b - a) / (cs.length : ℚ))))
              cs.attach.enum) i hlt
            = setEqualAngles (getElem cs i hi)
              (a + (i : ℚ) * ((b - a) / (cs.length : ℚ)))
              (a + ((i : ℚ) + 1) * ((b - a) / (cs.length : ℚ))) := by
          intro hlt
          simp [List.getElem_map, List.getElem_enum, List.getElem_attach]
        simp only [h1, List.length_map, List.enum_length, List.length_attach,
          setEqualAngles_x0, setEqualAngles_x1]
        simp
      · rw [List.all_eq_true]
        intro c _
        obtain ⟨pr, hpr, hceq⟩ := List.mem_map.mp c.2
        have hmem : (pr.2 : {x // x ∈ cs}).1 ∈ cs := pr.2.2
        have hsz := List.sizeOf_lt_of_mem hmem
        rw [← hceq]
        exact ihn pr.2.1 (by omega) _ _

/-- A node satisfying the checker with exactly two children gives them the
two exact halves of its span. -/
theorem equalAngleChk_two (u : ATree) (h : equalAngleChk u = true) (c₁ c₂ : ATree)
    (hc : u.children = [c₁, c₂]) :
    c₁.x0 = u.x0 ∧ c₁.x1 = u.x0 + (u.x1 - u.x0) / 2 ∧
    c₂.x0 = u.x0 + (u.x1 - u.x0) / 2 ∧ c₂.x1 = u.x1 := by
  cases u with
  | mk v a b cs =>
    simp only [ATree.children] at hc
    subst hc
    rw [equalAngleChk, Bool.and_eq_true] at h
    obtain ⟨h1, _⟩ := h
    rw [List.all_eq_true] at h1
    have e1 := h1 (0, c₁) (by simp [List.enum, List.enumFrom])
    have e2 := h1 (1, c₂) (by simp [List.enum, List.enumFrom])
    simp only [Bool.and_eq_true, decide_eq_true_eq, List.length_cons, List.length_nil] at e1 e2
    push_cast at e1 e2
    refine ⟨?_, ?_, ?_, ?_⟩
    · rw [e1.1]; simp only [ATree.x0]; ring
    · rw [e1.2]; simp only [ATree.x0, ATree.x1]; ring
    · rw [e2.1]; simp only [ATree.x0, ATree.x1]; ring
    · rw [e2.2]; simp only [ATree.x0, ATree.x1]; ring

/-! ## Claim C6: equal angular partition -/

/-- C6: laying out any tree over the full span `[0, τ]` (the code calls
with `τ = 2π`) gives the root the full span, gives every node's children
contiguous, non-overlapping, equal-width slices that exactly partition the
parent's span (`equalAngleChk`, which fully determines every bound from the
tree shape alone — node values/scores play no part), and in particular a
root with exactly two children gets the spans `[0, τ/2)` and `[τ/2, τ)`. -/
theorem setEqualAngles_partition (t : ATree) (τ : ℚ) :
    (setEqualAngles t 0 τ).x0 = 0 ∧ (setEqualAngles t 0 τ).x1 = τ ∧
    equalAngleChk (setEqualAngles t 0 τ) = true ∧
    (∀ c₁ c₂, (setEqualAngles t 0 τ).children = [c₁, c₂] →
      c₁.x0 = 0 ∧ c₁.x1 = τ / 2 ∧ c₂.x0 = τ / 2 ∧ c₂.x1 = τ) := by
  have hchk := equalAngleChk_setEqualAngles (sizeOf t) t le_rfl 0 τ
  refine ⟨setEqualAngles_x0 t 0 τ, setEqualAngles_x1 t 0 τ, hchk, ?_⟩
  intro c₁ c₂ hc
  have h := equalAngleChk_two _ hchk c₁ c₂ hc
  rw [setEqualAngles_x0, setEqualAngles_x1] at h
  refine ⟨h.1, ?_, ?_, ?_⟩
  · rw [h.2.1]; ring
  · rw [h.2.2.1]; ring
  · exact h.2.2.2

/-- Witness for C6: a root with two children laid out over `[0, 10]` gets
children spanning `[0, 5]` and `[5, 10]`. -/
theorem setEqualAngles_partition_witness :
    ((ATree.mk 2 0 5 []).x0 = 0 ∧ (ATree.mk 2 0 5 []).x1 = 10 / 2 ∧
     (ATree.mk 3 5 10 []).x0 = 10 / 2 ∧ (ATree.mk 3 5 10 []).x1 = 10) ∧
    equalAngleChk (setEqualAngles (.mk 1 5 7 [.mk 2 0 0 [], .mk 3 0 0 []]) 0 10) = true := by
  have h := setEqualAngles_partition (.mk 1 5 7 [.mk 2 0 0 [], .mk 3 0 0 []]) 10
  refine ⟨h.2.2.2 _ _ ?_, h.2.2.1⟩
  simp [setEqualAngles, ATree.children, List.enum, List.enumFrom]
  norm_num

/-! ## Radius warp (src/js/D3Sunburst.js, `getRadius` and the arc radii)

```
const getRadius = (y) => {
    const normalized = y / this.radius;
    const exponent = Config.spacing.radiusExponent.base +
        (maxDepth - Config.spacing.exponentDepthThreshold) * Config.spacing.radiusExponent.perLevel;
    return Math.pow(normalized, exponent) * this.radius;
};
const verticalGap = this.radius * Config.spacing.verticalGap;
this.arc.innerRadius(d => getRadius(d.y0) + verticalGap)
    .outerRadius(d => getRadius(d.y1) - verticalGap)
```

The fractional real power `Math.pow` is embedded as `Real.rpow`; these
definitions live on `ℝ` and are therefore noncomputable. -/

/-- `getRadius` of `render`, for chart radius `radius` and the subtree's
`maxDepth`. -/
noncomputable def getRadius (radius : ℝ) (maxDepth : ℕ) (y : ℝ) : ℝ :=
  let normalized := y / radius
  let exponent : ℝ :=
    (Config.spacing.radiusExponent.base : ℝ) +
      ((maxDepth : ℝ) - (Config.spacing.exponentDepthThreshold : ℝ)) *
        (Config.spacing.radiusExponent.perLevel : ℝ)
  normalized ^ exponent * radius

/-- The fixed radial gap `this.radius * Config.spacing.verticalGap`. -/
noncomputable def verticalGap (radius : ℝ) : ℝ :=
  radius * (Config.spacing.verticalGap : ℝ)

/-- The resolved inner radius assigned to an arc with raw radial bound
`y0`. -/
noncomputable def arcInnerRadius (radius : ℝ) (maxDepth : ℕ) (y0 : ℝ) : ℝ :=
  getRadius radius maxDepth y0 + verticalGap radius

/-- The resolved outer radius assigned to an arc with raw radial bound
`y1`. -/
noncomputable def arcOuterRadius (radius : ℝ) (maxDepth : ℕ) (y1 : ℝ) : ℝ :=
  getRadius radius maxDepth y1 - verticalGap radius

/-- Modelled from the spec wording of C7 (for refinement comparison):
`warp(y) = (y / R)^exponent * R`. -/
noncomputable def warp (R exponent y : ℝ) : ℝ :=
  (y / R) ^ exponent * R

/-- Modelled from the spec wording of C7:
`exponent = baseExponent + (maxDepth - depthThreshold) * perLevelIncrement`
with the claimed constants `1.2`, `3`, `0.2`. -/
noncomputable def specExponent (maxDepth : ℕ) : ℝ :=
  1.2 + ((maxDepth : ℝ) - 3) * 0.2

/-- Modelled from the spec wording of C7: `warp(y0) + verticalGap * R` with
`verticalGap = 0.01`. -/
noncomputable def specInnerRadius (R : ℝ) (maxDepth : ℕ) (y0 : ℝ) : ℝ :=
  warp R (specExponent maxDepth) y0 + 0.01 * R

/-- Modelled from the spec wording of C7: `warp(y1) - verticalGap * R`. -/
noncomputable def specOuterRadius (R : ℝ) (maxDepth : ℕ) (y1 : ℝ) : ℝ :=
  warp R (specExponent maxDepth) y1 - 0.01 * R

/-! ## Claim C7: resolved radii follow the configured warp formula -/

/-- C7: for every chart radius, subtree depth and raw radial bound, the
code's resolved inner and outer radii equal the spec's
`warp(y0) + verticalGap * R` and `warp(y1) - verticalGap * R` with
`warp(y) = (y / R)^exponent * R`,
`exponent = 1.2 + (maxDepth - 3) * 0.2`, and the configured constants
`baseExponent = 1.2`, `perLevelIncrement = 0.2`, `depthThreshold = 3`,
`verticalGap = 0.01`. -/
theorem arcRadii_eq_spec_warp (R : ℝ) (maxDepth : ℕ) (y0 y1 : ℝ) :
    arcInnerRadius R maxDepth y0 = specInnerRadius R maxDepth y0 ∧
    arcOuterRadius R maxDepth y1 = specOuterRadius R maxDepth y1 ∧
    Config.spacing.radiusExponent.base = (1.2 : ℚ) ∧
    Config.spacing.radiusExponent.perLevel = (0.2 : ℚ) ∧
    Config.spacing.exponentDepthThreshold = (3 : ℚ) ∧
    Config.spacing.verticalGap = (0.01 : ℚ) := by
  have he : (Config.spacing.radiusExponent.base : ℝ) +
      ((maxDepth : ℝ) - (Config.spacing.exponentDepthThreshold : ℝ)) *
        (Config.spacing.radiusExponent.perLevel : ℝ) = specExponent maxDepth := by
    simp only [Config, specExponent]
    push_cast
    norm_num
  have hg : R * (Config.spacing.verticalGap : ℝ) = 0.01 * R := by
    simp only [Config]
    push_cast
    ring_nf
  constructor
  · simp only [arcInnerRadius, getRadius, verticalGap, specInnerRadius, warp]
    rw [he, hg]
  constructor
  · simp only [arcOuterRadius, getRadius, verticalGap, specOuterRadius, warp]
    rw [he, hg]
  refine ⟨?_, ?_, ?_, ?_⟩ <;> norm_num [Config]

/-! ## Zoom state machine (src/js/DebateVisualizer.js)

The zoom state consists of `this.currentTree` (the built tree, set only on
file load), `this.zoomStack` (reset to `[this.currentTree]` on load), and
the chart's rendered root (`chart.zoomTo(node)` sets it and re-renders).
The tree nodes are embedded with just the fields the zoom code reads: `id`
and `children`.

```
zoomIn(nodeId) {
    const node = this.findNodeById(this.currentTree, nodeId);
    if (node) { this.zoomStack.push(node); ...; this.chart.zoomTo(node); }
}
zoomOut() {
    if (this.zoomStack.length > 1) {
        this.zoomStack.pop();
        const node = this.zoomStack[this.zoomStack.length - 1]; ... }
}
zoomToLevel(level) {
    if (level >= 0 && level < this.zoomStack.length) {
        this.zoomStack = this.zoomStack.slice(0, level + 1);
        const node = this.zoomStack[this.zoomStack.length - 1]; ... }
}
```

Note that `zoomIn` searches from `this.currentTree` — the *global* built
root, which zooming never changes — and pushes whatever node it finds,
with no check on its children. -/

/-- A built tree node as the zoom code sees it. -/
inductive VTree where
  | mk (id : String) (children : List VTree)

/-- The node id. -/
def VTree.id : VTree → String
  | .mk i _ => i

/-- The node's children. -/
def VTree.children : VTree → List VTree
  | .mk _ cs => cs

/-- `findNodeById(node, id)`: the node itself if its id matches, otherwise
the first match found in its children, depth-first in order; `null`
(`none`) when absent. -/
def findNodeById : VTree → String → Option VTree
  | t@(.mk i cs), target =>
    if i = target then some t
    else cs.attach.findSome? fun c => findNodeById c.1 target
termination_by t _ => sizeOf t
decreasing_by
  simp_wf
  have := List.sizeOf_lt_of_mem c.2
  omega

/-- All nodes of a tree (the tree and, recursively, its descendants). -/
def subtrees : VTree → List VTree
  | t@(.mk _ cs) => t :: (cs.attach.map fun c => subtrees c.1).flatten
termination_by t => sizeOf t
decreasing_by
  simp_wf
  have := List.sizeOf_lt_of_mem c.2
  omega

theorem mem_subtrees_self (t : VTree) : t ∈ subtrees t := by
  cases t with
  | mk i cs => rw [subtrees]; exact List.mem_cons_self _ _

/-- Whatever `findNodeById` returns is a node of the searched tree. -/
theorem findNodeById_mem_subtrees :
    ∀ (n : ℕ) (t : VTree), sizeOf t ≤ n → ∀ (target : String) (u : VTree),
      findNodeById t target = some u → u ∈ subtrees t := by
  intro n
  induction n with
  | zero =>
    intro t ht
    exfalso
    cases t with
    | mk i cs => simp at ht
  | succ n ihn =>
    intro t ht target u hfind
    cases t with
    | mk i cs =>
      simp only [VTree.mk.sizeOf_spec] at ht
      rw [findNodeById] at hfind
      by_cases hi : i = target
      · rw [if_pos hi] at hfind
        rw [Option.some.injEq] at hfind
        rw [← hfind]
        exact mem_subtrees_self _
      · rw [if_neg hi] at hfind
        obtain ⟨c, hc, hfc⟩ := List.exists_of_findSome?_eq_some hfind
        have hmem : c.1 ∈ cs := c.2
        have hsz := List.sizeOf_lt_of_mem hmem
        have hu := ihn c.1 (by omega) target u hfc
        rw [subtrees]
        apply List.mem_cons_of_mem
        rw [List.mem_flatten]
        exact ⟨subtrees c.1, List.mem_map_of_mem _ hc, hu⟩

/-- The `DebateVisualizer` zoom state: the built tree, the breadcrumb
stack, and the root the chart currently renders. -/
structure VizState where
  currentTree : VTree
  zoomStack : List VTree
  chartRoot : VTree

/-- State after `loadFile`: `currentTree` is the built tree, the stack is
reset to `[tree]`, and the chart renders the tree. -/
def initState (t : VTree) : VizState :=
  ⟨t, [t], t⟩

/-- `zoomIn(nodeId)`: look the id up from the *global* root
(`this.currentTree`); if found — children or not — push it and re-render
rooted at it; otherwise do nothing. -/
def zoomIn (st : VizState) (nodeId : String) : VizState :=
  match findNodeById st.currentTree nodeId with
  | some node => { st with zoomStack := st.zoomStack ++ [node], chartRoot := node }
  | none => st

/-- `zoomOut()`: when more than one entry, pop and re-render at the new
top. (The `none` branch of the match is unreachable: after popping a stack
of length at least two the stack is nonempty.) -/
def zoomOut (st : VizState) : VizState :=
  if st.zoomStack.length > 1 then
    match st.zoomStack.dropLast.getLast? with
    | some node => { st with zoomStack := st.zoomStack.dropLast, chartRoot := node }
    | none => { st with zoomStack := st.zoomStack.dropLast }
  else st

/-- `zoomToLevel(level)`: for a level inside the stack bounds, truncate the
stack to `slice(0, level + 1)` and re-render at the new top. (Again the
`none` branch is unreachable.) -/
def zoomToLevel (st : VizState) (level : ℤ) : VizState :=
  if 0 ≤ level ∧ level < st.zoomStack.length then
    match (st.zoomStack.take (level.toNat + 1)).getLast? with
    | some node => { st with zoomStack := st.zoomStack.take (level.toNat + 1), chartRoot := node }
    | none => { st with zoomStack := st.zoomStack.take (level.toNat + 1) }
  else st

/-- One user-driven zoom operation. -/
inductive ZoomOp where
  | zin (nodeId : String)
  | zout
  | ztl (level : ℤ)

/-- Apply one zoom operation. -/
def applyZoomOp (st : VizState) : ZoomOp → VizState
  | .zin i => zoomIn st i
  | .zout => zoomOut st
  | .ztl l => zoomToLevel st l

/-- Run a sequence of zoom operations on a freshly loaded tree. -/
def runZoom (t : VTree) (ops : List ZoomOp) : VizState :=
  ops.foldl applyZoomOp (initState t)

/-- The provable zoom-stack invariant: the global tree never changes, the
stack is nonempty, starts with the original root, and contains only nodes
of the built tree. -/
def ZoomInv (t : VTree) (st : VizState) : Prop :=
  st.currentTree = t ∧ st.zoomStack ≠ [] ∧ st.zoomStack.head? = some t ∧
    ∀ e ∈ st.zoomStack, e ∈ subtrees t

theorem applyZoomOp_inv (t : VTree) (st : VizState) (op : ZoomOp)
    (h : ZoomInv t st) : ZoomInv t (applyZoomOp st op) := by
  obtain ⟨hcur, hne, hhead, hmem⟩ := h
  obtain ⟨rest, hstack⟩ : ∃ rest, st.zoomStack = t :: rest := by
    cases hs : st.zoomStack with
    | nil => exact absurd hs hne
    | cons a l =>
      rw [hs] at hhead
      simp only [List.head?_cons, Option.some.injEq] at hhead
      exact ⟨l, by rw [hhead]⟩
  cases op with
  | zin i =>
    show ZoomInv t (zoomIn st i)
    rw [zoomIn]
    cases hfind : findNodeById st.currentTree i with
    | none => exact ⟨hcur, hne, hhead, hmem⟩
    | some node =>
      have hnodemem : node ∈ subtrees t := by
        rw [hcur] at hfind
        exact findNodeById_mem_subtrees (sizeOf t) t le_rfl i node hfind
      refine ⟨hcur, by simp, ?_, ?_⟩
      · rw [hstack]; simp
      · intro e he
        rcases List.mem_append.mp he with he | he
        · exact hmem e he
        · simp only [List.mem_singleton] at he
          rw [he]
          exact hnodemem
  | zout =>
    show ZoomInv t (zoomOut st)
    rw [zoomOut]
    by_cases hlen : st.zoomStack.length > 1
    · rw [if_pos hlen]
      have hrest : rest ≠ [] := by
        intro hr
        rw [hstack, hr] at hlen
        simp at hlen
      have hdl : st.zoomStack.dropLast = t :: rest.dropLast := by
        rw [hstack, List.dropLast_cons_of_ne_nil hrest]
      have key : ∀ cr, ZoomInv t
          { st with zoomStack := st.zoomStack.dropLast, chartRoot := cr } := fun cr =>
        ⟨hcur, by rw [hdl]; simp, by rw [hdl]; simp, fun e he =>
          hmem e (List.dropLast_subset _ he)⟩
      cases hlast : st.zoomStack.dropLast.getLast? with
      | none => exact key st.chartRoot
      | some node => exact key node
    · rw [if_neg hlen]
      exact ⟨hcur, hne, hhead, hmem⟩
  | ztl l =>
    show ZoomInv t (zoomToLevel st l)
    rw [zoomToLevel]
    by_cases hcond : 0 ≤ l ∧ l < st.zoomStack.length
    · rw [if_pos hcond]
      have htk : st.zoomStack.take (l.toNat + 1) = t :: rest.take l.toNat := by
        rw [hstack]
        rfl
      have key : ∀ cr, ZoomInv t
          { st with zoomStack := st.zoomStack.take (l.toNat + 1), chartRoot := cr } := fun cr =>
        ⟨hcur, by rw [htk]; simp, by rw [htk]; simp, fun e he =>
          hmem e (List.take_subset _ _ he)⟩
      cases hlast : (st.zoomStack.take (l.toNat + 1)).getLast? with
      | none => exact key st.chartRoot
      | some node => exact key node
    · rw [if_neg hcond]
      exact ⟨hcur, hne, hhead, hmem⟩

theorem foldl_zoom_inv (t : VTree) :
    ∀ (ops : List ZoomOp) (st : VizState), ZoomInv t st →
      ZoomInv t (ops.foldl applyZoomOp st) := by
  intro ops
  induction ops with
  | nil => intro st h; exact h
  | cons op ops ihops =>
    intro st h
    rw [List.foldl_cons]
    exact ihops _ (applyZoomOp_inv t st op h)

/-! ## Claim C2: what `zoomIn` actually does -/

/-- C2 counterexample: from the focus `"b"` (reached by a legitimate
`zoomIn "b"`), calling `zoomIn "a"` — where `"a"` is a *leaf* that is *not*
under the current focus `"b"` at all — still pushes `"a"` onto the stack
and re-roots the layout at it: the stack becomes `["r", "b", "a"]`, not the
unchanged `["r", "b"]` the claim requires (the target has no children, and
is not even in the currently rooted subtree). -/
theorem zoomIn_focus_leaf_counterexample :
    (runZoom (.mk "r" [.mk "a" [], .mk "b" [.mk "k" []]])
        [.zin "b", .zin "a"]).zoomStack.map VTree.id = ["r", "b", "a"] ∧
    (VTree.mk "a" []).children.length = 0 ∧
    (∀ u ∈ subtrees (.mk "b" [.mk "k" []]), u.id ≠ "a") := by
  refine ⟨?_, rfl, ?_⟩
  · simp [runZoom, initState, applyZoomOp, zoomIn, findNodeById, VTree.id]
  · intro u hu
    simp [subtrees] at hu
    rcases hu with hu | hu <;> rw [hu] <;> simp [VTree.id]

/-- C2 amended: `zoomIn(targetId)` looks the target up in the whole built
tree starting from the global root `this.currentTree` (not from the zoom
stack's top), and pushes *any* found node — leaf or not — onto the stack,
re-rendering rooted at it; only a target id absent from the entire built
tree makes the call a no-op. (The at-least-one-child guard lives in the
click handler `handleClick`, not in `zoomIn`.) -/
theorem zoomIn_global_lookup (st : VizState) (nodeId : String) :
    (findNodeById st.currentTree nodeId = none → zoomIn st nodeId = st) ∧
    (∀ node, findNodeById st.currentTree nodeId = some node →
      (zoomIn st nodeId).zoomStack = st.zoomStack ++ [node] ∧
      (zoomIn st nodeId).chartRoot = node ∧
      (zoomIn st nodeId).currentTree = st.currentTree ∧
      node ∈ subtrees st.currentTree) := by
  constructor
  · intro h
    rw [zoomIn, h]
  · intro node h
    rw [zoomIn, h]
    exact ⟨rfl, rfl, rfl,
      findNodeById_mem_subtrees (sizeOf st.currentTree) _ le_rfl _ _ h⟩

/-- Witness for C2: zooming in on a leaf id appends the leaf to the
stack. -/
theorem zoomIn_global_lookup_witness :
    (zoomIn (initState (.mk "r" [.mk "a" []])) "a").zoomStack
      = [VTree.mk "r" [.mk "a" []], VTree.mk "a" []] ∧
    (VTree.mk "a" []).children = [] := by
  have h := (zoomIn_global_lookup (initState (.mk "r" [.mk "a" []])) "a").2
    (.mk "a" []) (by simp [initState, findNodeById])
  exact ⟨h.1, rfl⟩

/-! ## Claim C5: the zoom-stack invariant -/

/-- C5 counterexample: on the chain `r — b — c`, a single `zoomIn "c"`
(reachable in the UI by clicking the rendered grandchild arc) produces the
stack `["r", "c"]`, whose second element is not a child of the first (the
only child of `"r"` is `"b"`). -/
theorem zoomStack_child_counterexample :
    (runZoom (.mk "r" [.mk "b" [.mk "c" []]]) [.zin "c"]).zoomStack.map VTree.id
      = ["r", "c"] ∧
    "c" ∉ (VTree.mk "r" [.mk "b" [.mk "c" []]]).children.map VTree.id := by
  constructor
  · simp [runZoom, initState, applyZoomOp, zoomIn, findNodeById, VTree.id]
  · simp [VTree.children, VTree.id]

/-- C5 amended: after any sequence of `zoomIn` / `zoomOut` / `zoomToLevel`
calls from a freshly loaded tree, the stack is never empty, its first
element is always the original root, and every stack element is a node of
the built tree — but consecutive elements need not be in a parent/child
relation (see the counterexample). -/
theorem zoomStack_invariant (t : VTree) (ops : List ZoomOp) :
    (runZoom t ops).zoomStack ≠ [] ∧
    (runZoom t ops).zoomStack.head? = some t ∧
    ∀ e ∈ (runZoom t ops).zoomStack, e ∈ subtrees t := by
  have h0 : ZoomInv t (initState t) :=
    ⟨rfl, by simp [initState], by simp [initState],
     by simp only [initState, List.mem_singleton]; intro e he; rw [he]; exact mem_subtrees_self t⟩
  have h := foldl_zoom_inv t ops (initState t) h0
  exact ⟨h.2.1, h.2.2.1, h.2.2.2⟩
